import Mathlib

/-!
Shallow embedding of `src/main.py` (BigQuery table parser).

Strings are modelled as `List Char`.  Python's `re.findall` calls are modelled
by direct scanning functions: for the two regexes used by the program
(`TABLE_REGEX` and the clause-keyword pattern of `parse_query`) greedy
character-class repetition never backtracks productively (the class excludes
`.` and the backquote), so leftmost scanning with maximal munch is an exact
model of the Python regex engine on these patterns.  Python's `set` results
are modelled as duplicate-free lists in first-occurrence order.
-/

namespace BQTool

/-- The ASCII whitespace characters stripped by Python's `str.strip()`. -/
def isPyWS (c : Char) : Bool :=
  c = ' ' || c = '\t' || c = '\n' || c = '\r' || c = Char.ofNat 11 || c = Char.ofNat 12

/-- `str.lstrip()` on a list of characters. -/
def lstrip (s : List Char) : List Char := s.dropWhile isPyWS

/-- `str.rstrip()` on a list of characters. -/
def rstrip (s : List Char) : List Char := (s.reverse.dropWhile isPyWS).reverse

/-- `str.strip()` on a list of characters. -/
def strip (s : List Char) : List Char := rstrip (lstrip s)

/-- `str.lower()` on a list of characters (ASCII). -/
def lower (s : List Char) : List Char := s.map Char.toLower

/-- The character class `[a-zA-Z0-9\-_]` of `TABLE_REGEX` in `src/main.py` line 25. -/
def isWordChar (c : Char) : Bool :=
  decide (('a' ≤ c ∧ c ≤ 'z') ∨ ('A' ≤ c ∧ c ≤ 'Z') ∨ ('0' ≤ c ∧ c ≤ '9') ∨ c = '-' ∨ c = '_')

/-- The backquote character (code point 96) that `TABLE_REGEX` optionally strips. -/
def backquote : Char := Char.ofNat 96

/-- The greedy `[a-zA-Z0-9\-_]+` of `TABLE_REGEX`: the maximal non-empty run
of word characters at the current position (the class excludes `.` and the
backquote, so the regex engine never backtracks into it productively). -/
def takeSeg (s : List Char) : Option (List Char × List Char) :=
  let a := s.takeWhile isWordChar
  if a.isEmpty then none else some (a, s.dropWhile isWordChar)

/-- The literal `\.` of `TABLE_REGEX`. -/
def expectDot (s : List Char) : Option (List Char) :=
  match s with
  | c :: t => if c = '.' then some t else none
  | [] => none

/-- The optional backquote of `TABLE_REGEX` (greedy, hence always consumed
when present). -/
def skipTick (s : List Char) : List Char :=
  if s.head? = some backquote then s.tail else s

/-- One attempt to match `TABLE_REGEX` at the current position: an optional
backquote, three non-empty word-character segments separated by literal dots,
and an optional closing backquote.  On success, returns the captured group
(the three segments with dots, backquotes excluded) and the characters
remaining after the whole match. -/
def matchTable (s : List Char) : Option (List Char × List Char) :=
  (takeSeg (skipTick s)).bind fun p1 =>
  (expectDot p1.2).bind fun s2 =>
  (takeSeg s2).bind fun p2 =>
  (expectDot p2.2).bind fun s4 =>
  (takeSeg s4).bind fun p3 =>
  some (p1.1 ++ '.' :: (p2.1 ++ '.' :: p3.1), skipTick p3.2)

/-- The `(FROM|from|JOIN|join){1} ` part of the pattern in `parse_query`
(line 65 of `src/main.py`): one of the four exact keyword literals followed by
exactly one space.  Returns the remaining characters on success. -/
def matchKw : List Char → Option (List Char)
  | 'F' :: 'R' :: 'O' :: 'M' :: ' ' :: rest => some rest
  | 'f' :: 'r' :: 'o' :: 'm' :: ' ' :: rest => some rest
  | 'J' :: 'O' :: 'I' :: 'N' :: ' ' :: rest => some rest
  | 'j' :: 'o' :: 'i' :: 'n' :: ' ' :: rest => some rest
  | _ => none

/-- `re.findall` scanning for the pattern of `parse_query`: try the pattern at
each position; on a match record the table group and resume after the match.
Fuel is the length of the input, which each step strictly consumes. -/
def scanQueryAux : Nat → List Char → List (List Char)
  | 0, _ => []
  | _ + 1, [] => []
  | n + 1, s@(_ :: t) =>
    match matchKw s with
    | some rest =>
      match matchTable rest with
      | some (g, rest2) => g :: scanQueryAux n rest2
      | none => scanQueryAux n t
    | none => scanQueryAux n t

def scanQuery (s : List Char) : List (List Char) := scanQueryAux s.length s

/-- Whether the `parse_query` pattern matches at some position of `s`. -/
def existsMatchQ : List Char → Bool
  | [] => false
  | s@(_ :: t) =>
    (match matchKw s with
     | some rest => (matchTable rest).isSome
     | none => false) || existsMatchQ t

/-- `re.findall(TABLE_REGEX, s)`: the bare table pattern scanned at every
position, resuming after each match. -/
def scanTableAux : Nat → List Char → List (List Char)
  | 0, _ => []
  | _ + 1, [] => []
  | n + 1, s@(_ :: t) =>
    match matchTable s with
    | some (g, rest) => g :: scanTableAux n rest
    | none => scanTableAux n t

def scanTable (s : List Char) : List (List Char) := scanTableAux s.length s

/-- Whether `TABLE_REGEX` matches at some position of `s`. -/
def existsMatchT : List Char → Bool
  | [] => false
  | s@(_ :: t) => (matchTable s).isSome || existsMatchT t

/-- Duplicate removal keeping the first occurrence: the model of Python's
`set(...)` built from a list (`seen` accumulates values already emitted). -/
def dedupKeepFirst : List (List Char) → List (List Char) → List (List Char)
  | _, [] => []
  | seen, x :: xs =>
    if x ∈ seen then dedupKeepFirst seen xs else x :: dedupKeepFirst (x :: seen) xs

/-- Lines 57–61 of `parse_query`: strip each line, drop lines that are empty
or start with the comment marker `--`, join the survivors with one space. -/
def cleanQuery (query : List (List Char)) : List Char :=
  let query_lines := query.map strip
  List.intercalate [' ']
    (query_lines.filter (fun l => !l.isEmpty && !(['-', '-'].isPrefixOf l)))

/-- `parse_query` from `src/main.py` (lines 42–69); the returned Python `set`
is modelled as a duplicate-free list in first-match order. -/
def parse_query (query : List (List Char)) : List (List Char) :=
  dedupKeepFirst [] (scanQuery (cleanQuery query))

/-- Whether `pat` occurs as a contiguous substring of the input. -/
def containsSub (pat : List Char) : List Char → Bool
  | [] => pat.isPrefixOf []
  | s@(_ :: t) => pat.isPrefixOf s || containsSub pat t

/-- `re.search(r'bq|bigquery|table', l)` (line 85): substring containment of
one of the three keyword literals. -/
def kwSearch (l : List Char) : Bool :=
  containsSub "bq".toList l || containsSub "bigquery".toList l || containsSub "table".toList l

/-- `parse_settings` from `src/main.py` (lines 72–92). -/
def parse_settings (settings : List (List Char)) : List (List Char) :=
  let settings_lines := (settings.filter (fun l => !(strip l).isEmpty)).map (fun l => lower (strip l))
  let candidates := (settings_lines.filter
      (fun l => !(['#'].isPrefixOf l) && kwSearch (lower l))).map scanTable
  candidates.flatten.filter
    (fun c => !c.isEmpty && !("os.".toList.isPrefixOf c || "sys.".toList.isPrefixOf c))

/-- Python `s.split(d)` for a one-character separator. -/
def splitCh (d : Char) : List Char → List (List Char)
  | [] => [[]]
  | c :: t =>
    if c = d then [] :: splitCh d t
    else
      match splitCh d t with
      | h :: r => (c :: h) :: r
      | [] => [[c]]

/-- One decoded record of the scheduled-query catalog as consumed by
`parse_scheduled_queries` (the `bq ls` subprocess is external; the loop body
of lines 124–131 consumes its decoded JSON).  `query` is
`scheduled_query['params'].get('query')`, hence `Option`. -/
structure SQRecord where
  displayName : List Char
  disabled : Bool
  query : Option (List Char)
deriving DecidableEq, Repr

/-- Line 128: the display name, decorated with a literal suffix when disabled. -/
def displayOf (r : SQRecord) : List Char :=
  r.displayName ++ (if r.disabled then " (disabled)".toList else [])

/-- `defaultdict(list)` append: `table_dict[tablename].append(query_name)`,
preserving dict insertion order of keys. -/
def addEntry (d : List (List Char × List (List Char))) (t n : List Char) :
    List (List Char × List (List Char)) :=
  match d with
  | [] => [(t, [n])]
  | (k, v) :: rest => if k = t then (k, v ++ [n]) :: rest else (k, v) :: addEntry rest t n

/-- The loop of `parse_scheduled_queries` (lines 124–131).  A record whose
`query` is `none` makes the Python code evaluate `None.split('\n')`, an
`AttributeError`, modelled as `Except.error ()`. -/
def sqFold : List SQRecord → List (List Char × List (List Char)) →
    Except Unit (List (List Char × List (List Char)))
  | [], acc => Except.ok acc
  | r :: rest, acc =>
    match r.query with
    | none => Except.error ()
    | some q =>
      sqFold rest ((parse_query (splitCh '\n' q)).foldl (fun d t => addEntry d t (displayOf r)) acc)

/-- `parse_scheduled_queries` from `src/main.py` (lines 95–133), with the
already-decoded catalog records as input. -/
def parse_scheduled_queries (records : List SQRecord) :
    Except Unit (List (List Char × List (List Char))) :=
  sqFold records []

/-- One value of the report mapping built in `__main__`: optional `queries`
and `code` keys. -/
structure ReportEntry where
  queries : Option (List (List Char))
  code : Option (List (List Char))
deriving DecidableEq, Repr

def keysOf (d : List (List Char × List (List Char))) : List (List Char) := d.map Prod.fst

/-- Python `sorted` on a list of strings (ascending lexicographic order). -/
def sortAsc (l : List (List Char)) : List (List Char) := List.insertionSort (· ≤ ·) l

/-- The merge step of `__main__` (lines 188–200 of `src/main.py`): sorted
deduplicated union of the key sets, each key mapped to a record carrying
`queries` exactly when the key is in `sq_res` and `code` exactly when it is
in `proj_res`, both value lists sorted ascending. -/
def merge (proj_res sq_res : List (List Char × List (List Char))) :
    List (List Char × ReportEntry) :=
  let total_tables := keysOf proj_res ++ keysOf sq_res
  (sortAsc (dedupKeepFirst [] total_tables)).map fun table =>
    (table,
      { queries := (List.lookup table sq_res).map sortAsc,
        code := (List.lookup table proj_res).map sortAsc })

/-! ### Lemmas about stripping and comment lines -/

theorem dropWhile_append_single {p : Char → Bool} {c : Char} (hc : p c = false) :
    ∀ l : List Char, (l ++ [c]).dropWhile p = l.dropWhile p ++ [c]
  | [] => by simp [List.dropWhile_cons, hc]
  | x :: l => by
    by_cases hx : p x = true
    · simp [List.dropWhile_cons, hx, dropWhile_append_single hc l]
    · simp [List.dropWhile_cons, hx]

theorem rstrip_cons {c : Char} (hc : isPyWS c = false) (s : List Char) :
    rstrip (c :: s) = c :: rstrip s := by
  unfold rstrip
  rw [List.reverse_cons, dropWhile_append_single hc, List.reverse_append]
  simp

theorem strip_dashdash (r : List Char) :
    (['-', '-']).isPrefixOf (strip ('-' :: '-' :: r)) = true := by
  have hd : isPyWS '-' = false := by decide
  have hl : lstrip ('-' :: '-' :: r) = '-' :: '-' :: r := by
    unfold lstrip; simp [List.dropWhile_cons, hd]
  unfold strip
  rw [hl, rstrip_cons hd, rstrip_cons hd]
  simp [List.isPrefixOf]

theorem cleanQuery_append_comments {q ext : List (List Char)}
    (h : ∀ l ∈ ext, (['-', '-']).isPrefixOf (strip l) = true) :
    cleanQuery (q ++ ext) = cleanQuery q := by
  simp only [cleanQuery]
  rw [List.map_append, List.filter_append]
  have hnil : (ext.map strip).filter (fun l => !l.isEmpty && !(['-', '-']).isPrefixOf l) = [] := by
    rw [List.filter_eq_nil_iff]
    intro a ha
    rcases List.mem_map.mp ha with ⟨l, hl, rfl⟩
    simp [h l hl]
  rw [hnil, List.append_nil]

theorem cleanQuery_drop_comment {q1 q2 : List (List Char)} {l : List Char}
    (h : (['-', '-']).isPrefixOf (strip l) = true) :
    cleanQuery (q1 ++ l :: q2) = cleanQuery (q1 ++ q2) := by
  simp only [cleanQuery]
  rw [List.map_append, List.map_append, List.filter_append, List.filter_append,
      List.map_cons, List.filter_cons]
  simp [h]

/-- C4: appending to any input the extractor's own results, each turned into a
`--`-prefixed comment line, leaves the extracted set unchanged. -/
theorem C4_extract_idempotent_on_comments (q : List (List Char)) :
    parse_query (q ++ (parse_query q).map (fun r => '-' :: '-' :: r)) = parse_query q := by
  have hext : ∀ l ∈ (parse_query q).map (fun r => '-' :: '-' :: r),
      (['-', '-']).isPrefixOf (strip l) = true := by
    intro l hl
    rcases List.mem_map.mp hl with ⟨r, _, rfl⟩
    exact strip_dashdash r
  show dedupKeepFirst []
      (scanQuery (cleanQuery (q ++ (parse_query q).map fun r => '-' :: '-' :: r))) =
    dedupKeepFirst [] (scanQuery (cleanQuery q))
  rw [cleanQuery_append_comments hext]

/-- C8: a line whose first non-whitespace characters are `--` contributes no
match to `parse_query` (removing it anywhere leaves the result unchanged), and
the single line `-- FROM a.b.c` yields the empty set. -/
theorem C8_comment_lines_excluded (q1 q2 : List (List Char)) (l : List Char)
    (h : (['-', '-']).isPrefixOf (strip l) = true) :
    parse_query (q1 ++ l :: q2) = parse_query (q1 ++ q2) ∧
    parse_query [("-- FROM a.b.c").toList] = [] := by
  constructor
  · show dedupKeepFirst [] (scanQuery (cleanQuery (q1 ++ l :: q2))) =
      dedupKeepFirst [] (scanQuery (cleanQuery (q1 ++ q2)))
    rw [cleanQuery_drop_comment h]
  · rfl

theorem C8_witness :
    ((['-', '-']).isPrefixOf (strip ("-- FROM x.y.z").toList) = true) ∧
    (parse_query [("FROM a.b.c").toList, ("-- FROM x.y.z").toList] =
      parse_query [("FROM a.b.c").toList] ∧
     parse_query [("-- FROM a.b.c").toList] = []) :=
  ⟨by decide,
   C8_comment_lines_excluded [("FROM a.b.c").toList] [] ("-- FROM x.y.z").toList (by decide)⟩

/-- C5: the clause keywords are recognized exactly in the literal casings
`FROM`/`from` (and `JOIN`/`join`); the mixed casing `From` is not. -/
theorem C5_keyword_casings :
    parse_query [("FROM project.a.b").toList] = [("project.a.b").toList] ∧
    parse_query [("from project.a.b").toList] = [("project.a.b").toList] ∧
    parse_query [("From project.a.b").toList] = [] :=
  ⟨rfl, rfl, rfl⟩

/-- C9: no word boundary is required before the clause keyword: the trailing
`FROM` of the token `PERFROM` triggers a match. -/
theorem C9_no_word_boundary :
    parse_query [("SELECT * PERFROM p.d.t").toList] = [("p.d.t").toList] := rfl

/-! ### The TableName grammar and the shape of extracted names -/

/-- A grammar segment: non-empty, word characters only. -/
def isSeg (s : List Char) : Bool := !s.isEmpty && s.all isWordChar

/-- The TableName grammar of the spec: exactly three dot-separated segments,
each a non-empty string over `[A-Za-z0-9\-_]`. -/
def isTableName (s : List Char) : Bool :=
  match splitCh '.' s with
  | [a, b, c] => isSeg a && isSeg b && isSeg c
  | _ => false

theorem splitCh_no_sep {d : Char} : ∀ {l : List Char}, (∀ x ∈ l, x ≠ d) →
    splitCh d l = [l]
  | [], _ => rfl
  | c :: t, h => by
    have hc : c ≠ d := h c (List.mem_cons_self ..)
    rw [splitCh, if_neg hc, splitCh_no_sep (fun x hx => h x (List.mem_cons_of_mem _ hx))]

theorem splitCh_append {d : Char} : ∀ {a : List Char} (r : List Char), (∀ x ∈ a, x ≠ d) →
    splitCh d (a ++ d :: r) = a :: splitCh d r
  | [], r, _ => by rw [List.nil_append, splitCh, if_pos rfl]
  | c :: t, r, h => by
    have hc : c ≠ d := h c (List.mem_cons_self ..)
    rw [List.cons_append, splitCh, if_neg hc,
        splitCh_append r (fun x hx => h x (List.mem_cons_of_mem _ hx))]

theorem word_ne_dot {x : Char} (h : isWordChar x = true) : x ≠ '.' := by
  intro he; rw [he] at h; exact absurd h (by decide)

theorem isSeg_of {l : List Char} (h1 : l ≠ []) (h2 : ∀ x ∈ l, isWordChar x = true) :
    isSeg l = true := by
  simp only [isSeg, Bool.and_eq_true, List.all_eq_true]
  exact ⟨by simp [h1], h2⟩

theorem isTableName_of_segments {a b c : List Char}
    (ha : a ≠ []) (hb : b ≠ []) (hc : c ≠ [])
    (wa : ∀ x ∈ a, isWordChar x = true) (wb : ∀ x ∈ b, isWordChar x = true)
    (wc : ∀ x ∈ c, isWordChar x = true) :
    isTableName (a ++ '.' :: (b ++ '.' :: c)) = true := by
  unfold isTableName
  rw [splitCh_append _ (fun x hx => word_ne_dot (wa x hx)),
      splitCh_append _ (fun x hx => word_ne_dot (wb x hx)),
      splitCh_no_sep (fun x hx => word_ne_dot (wc x hx))]
  simp [isSeg_of ha wa, isSeg_of hb wb, isSeg_of hc wc]

theorem backquote_notMem_segments {a b c : List Char}
    (wa : ∀ x ∈ a, isWordChar x = true) (wb : ∀ x ∈ b, isWordChar x = true)
    (wc : ∀ x ∈ c, isWordChar x = true) :
    backquote ∉ a ++ '.' :: (b ++ '.' :: c) := by
  intro hmem
  have hbq : isWordChar backquote = false := by decide
  rcases List.mem_append.mp hmem with h | h
  · rw [wa _ h] at hbq; cases hbq
  · rcases List.mem_cons.mp h with h | h
    · exact absurd h (by decide)
    · rcases List.mem_append.mp h with h | h
      · rw [wb _ h] at hbq; cases hbq
      · rcases List.mem_cons.mp h with h | h
        · exact absurd h (by decide)
        · rw [wc _ h] at hbq; cases hbq

theorem takeSeg_eq_some {s a s' : List Char} (h : takeSeg s = some (a, s')) :
    a ≠ [] ∧ (∀ x ∈ a, isWordChar x = true) := by
  simp only [takeSeg] at h
  split at h
  · cases h
  · next hne =>
    rw [Option.some.injEq, Prod.mk.injEq] at h
    obtain ⟨rfl, rfl⟩ := h
    refine ⟨?_, fun x hx => List.mem_takeWhile_imp hx⟩
    simpa using hne

/-- Characterization of a successful `matchTable`: the captured group is three
non-empty word-character segments joined by dots. -/
theorem matchTable_spec {s g r : List Char} (h : matchTable s = some (g, r)) :
    ∃ a b c : List Char, g = a ++ '.' :: (b ++ '.' :: c) ∧
      a ≠ [] ∧ b ≠ [] ∧ c ≠ [] ∧
      (∀ x ∈ a, isWordChar x = true) ∧ (∀ x ∈ b, isWordChar x = true) ∧
      (∀ x ∈ c, isWordChar x = true) := by
  simp only [matchTable, Option.bind_eq_some] at h
  obtain ⟨⟨a, s1⟩, h1, ⟨s2, _, ⟨⟨b, s3⟩, h3, ⟨s4, _, ⟨⟨c, s5⟩, h5, heq⟩⟩⟩⟩⟩ := h
  rw [Option.some.injEq, Prod.mk.injEq] at heq
  obtain ⟨ha1, ha2⟩ := takeSeg_eq_some h1
  obtain ⟨hb1, hb2⟩ := takeSeg_eq_some h3
  obtain ⟨hc1, hc2⟩ := takeSeg_eq_some h5
  exact ⟨a, b, c, heq.1.symm, ha1, hb1, hc1, ha2, hb2, hc2⟩

theorem mem_scanQueryAux : ∀ (n : Nat) (s g : List Char), g ∈ scanQueryAux n s →
    ∃ s' r, matchTable s' = some (g, r) := by
  intro n
  induction n with
  | zero => intro s g h; simp [scanQueryAux] at h
  | succ n ih =>
    intro s g h
    cases s with
    | nil => simp [scanQueryAux] at h
    | cons ch t =>
      rw [scanQueryAux] at h
      split at h
      · rename_i rest hk
        split at h
        · rename_i g2 r2 hm
          rcases List.mem_cons.mp h with h1 | h1
          · exact ⟨rest, r2, h1 ▸ hm⟩
          · exact ih _ _ h1
        · exact ih t g h
      · exact ih t g h

theorem mem_dedupKeepFirst : ∀ {l seen : List (List Char)} {y : List Char},
    y ∈ dedupKeepFirst seen l ↔ (y ∈ l ∧ y ∉ seen)
  | [], seen, y => by simp [dedupKeepFirst]
  | x :: xs, seen, y => by
    rw [dedupKeepFirst]
    by_cases hx : x ∈ seen
    · rw [if_pos hx, mem_dedupKeepFirst]
      constructor
      · exact fun ⟨h1, h2⟩ => ⟨List.mem_cons_of_mem _ h1, h2⟩
      · rintro ⟨h1, h2⟩
        rcases List.mem_cons.mp h1 with rfl | h1
        · exact absurd hx h2
        · exact ⟨h1, h2⟩
    · rw [if_neg hx]
      constructor
      · intro h1
        rcases List.mem_cons.mp h1 with rfl | h1
        · exact ⟨List.mem_cons_self .., hx⟩
        · obtain ⟨h2, h3⟩ := mem_dedupKeepFirst.mp h1
          exact ⟨List.mem_cons_of_mem _ h2, fun hc => h3 (List.mem_cons_of_mem _ hc)⟩
      · rintro ⟨h1, h2⟩
        rcases List.mem_cons.mp h1 with rfl | h1
        · exact List.mem_cons_self ..
        · by_cases hy : y = x
          · exact hy ▸ List.mem_cons_self ..
          · exact List.mem_cons_of_mem _ (mem_dedupKeepFirst.mpr
              ⟨h1, by simp [List.mem_cons, hy, h2]⟩)

theorem parse_query_shape {q : List (List Char)} {g : List Char}
    (h : g ∈ parse_query q) :
    ∃ a b c : List Char, g = a ++ '.' :: (b ++ '.' :: c) ∧
      a ≠ [] ∧ b ≠ [] ∧ c ≠ [] ∧
      (∀ x ∈ a, isWordChar x = true) ∧ (∀ x ∈ b, isWordChar x = true) ∧
      (∀ x ∈ c, isWordChar x = true) := by
  have h0 : g ∈ dedupKeepFirst [] (scanQuery (cleanQuery q)) := h
  obtain ⟨h1, _⟩ := mem_dedupKeepFirst.mp h0
  have h2 : g ∈ scanQueryAux (cleanQuery q).length (cleanQuery q) := h1
  obtain ⟨s', r, hm⟩ := mem_scanQueryAux (cleanQuery q).length (cleanQuery q) g h2
  exact matchTable_spec hm

/-- C3: every element returned by `parse_query` matches the TableName
grammar — exactly three dot-separated non-empty segments over
`[A-Za-z0-9\-_]` — and contains no backquote. -/
theorem C3_results_well_formed (q : List (List Char)) (g : List Char)
    (h : g ∈ parse_query q) : isTableName g = true ∧ backquote ∉ g := by
  obtain ⟨a, b, c, rfl, ha, hb, hc, wa, wb, wc⟩ := parse_query_shape h
  exact ⟨isTableName_of_segments ha hb hc wa wb wc, backquote_notMem_segments wa wb wc⟩

theorem C3_witness :
    (("project.a.b").toList ∈ parse_query [("FROM `project.a.b`").toList]) ∧
    (isTableName ("project.a.b").toList = true ∧ backquote ∉ ("project.a.b").toList) :=
  ⟨by decide, C3_results_well_formed [("FROM `project.a.b`").toList] ("project.a.b").toList
    (by decide)⟩

/-- C10: on `FROM a.b.c.d` only the first three segments are captured, and in
general every extracted name splits into exactly three dot-separated parts, so
a four-or-more-segment identifier is never returned whole. -/
theorem C10_three_segments_only (q : List (List Char)) (g : List Char)
    (h : g ∈ parse_query q) :
    parse_query [("FROM a.b.c.d").toList] = [("a.b.c").toList] ∧
    (splitCh '.' g).length = 3 := by
  refine ⟨rfl, ?_⟩
  obtain ⟨a, b, c, rfl, _, _, _, wa, wb, wc⟩ := parse_query_shape h
  rw [splitCh_append _ (fun x hx => word_ne_dot (wa x hx)),
      splitCh_append _ (fun x hx => word_ne_dot (wb x hx)),
      splitCh_no_sep (fun x hx => word_ne_dot (wc x hx))]
  rfl

theorem C10_witness :
    (("a.b.c").toList ∈ parse_query [("FROM a.b.c.d").toList]) ∧
    (parse_query [("FROM a.b.c.d").toList] = [("a.b.c").toList] ∧
     (splitCh '.' ("a.b.c").toList).length = 3) :=
  ⟨by decide, C10_three_segments_only [("FROM a.b.c.d").toList] ("a.b.c").toList (by decide)⟩

/-! ### Totality and empty results on non-matching input -/

theorem scanQueryAux_eq_nil : ∀ (n : Nat) {s : List Char},
    existsMatchQ s = false → scanQueryAux n s = [] := by
  intro n
  induction n with
  | zero => intro s _; rfl
  | succ n ih =>
    intro s h
    cases s with
    | nil => rfl
    | cons c t =>
      rw [existsMatchQ, Bool.or_eq_false_iff] at h
      obtain ⟨h1, h2⟩ := h
      rw [scanQueryAux]
      split
      · rename_i rest hk
        split
        · rename_i g2 r2 hm
          simp [hk, hm] at h1
        · exact ih h2
      · exact ih h2

theorem scanTableAux_eq_nil : ∀ (n : Nat) {s : List Char},
    existsMatchT s = false → scanTableAux n s = [] := by
  intro n
  induction n with
  | zero => intro s _; rfl
  | succ n ih =>
    intro s h
    cases s with
    | nil => rfl
    | cons c t =>
      rw [existsMatchT, Bool.or_eq_false_iff] at h
      obtain ⟨h1, h2⟩ := h
      rw [scanTableAux]
      split
      · rename_i g2 r2 hm
        simp [hm] at h1
      · exact ih h2

/-- C7: both extractors are total functions of their input (they are plain
Lean functions, mirroring Python code whose operations cannot raise on string
input), and when the respective pattern occurs nowhere, `parse_query` returns
the empty set and `parse_settings` the empty list. -/
theorem C7_total_and_empty_on_no_match (q s : List (List Char)) :
    (existsMatchQ (cleanQuery q) = false → parse_query q = []) ∧
    ((∀ l ∈ s, existsMatchT (lower (strip l)) = false) → parse_settings s = []) := by
  constructor
  · intro h
    show dedupKeepFirst [] (scanQuery (cleanQuery q)) = []
    rw [show scanQuery (cleanQuery q) = [] from scanQueryAux_eq_nil _ h]
    rfl
  · intro h
    simp only [parse_settings]
    rw [List.filter_eq_nil_iff]
    intro a ha
    exfalso
    rcases List.mem_flatten.mp ha with ⟨tl, htl, hatl⟩
    rcases List.mem_map.mp htl with ⟨l', hl', rfl⟩
    rcases List.mem_map.mp (List.mem_filter.mp hl').1 with ⟨l, hl, rfl⟩
    have hnil : scanTable (lower (strip l)) = [] :=
      scanTableAux_eq_nil _ (h l (List.mem_filter.mp hl).1)
    rw [hnil] at hatl
    exact absurd hatl (List.not_mem_nil a)

theorem C7_witness :
    (existsMatchQ (cleanQuery [("SELECT 1").toList]) = false ∧
     (∀ l ∈ [("x = 1").toList], existsMatchT (lower (strip l)) = false)) ∧
    (parse_query [("SELECT 1").toList] = [] ∧ parse_settings [("x = 1").toList] = []) :=
  ⟨⟨by decide, by decide⟩,
   (C7_total_and_empty_on_no_match [("SELECT 1").toList] [("x = 1").toList]).1 (by decide),
   (C7_total_and_empty_on_no_match [("SELECT 1").toList] [("x = 1").toList]).2 (by decide)⟩

/-! ### The settings extractor -/

/-- C6: the line `TABLE = "proj.ds.tbl"` yields `proj.ds.tbl`; the
`os.`-prefixed token of a keyword-bearing line `TABLE = os.path.join(x)`
yields nothing; and every candidate returned by `parse_settings` never begins
with `os.` or `sys.` and comes from an input line that, stripped and
lower-cased, does not start with `#` and contains one of the keywords
`bq`/`bigquery`/`table`. -/
theorem C6_settings_extraction (s : List (List Char)) (cand : List Char)
    (h : cand ∈ parse_settings s) :
    parse_settings [("TABLE = \"proj.ds.tbl\"").toList] = [("proj.ds.tbl").toList] ∧
    parse_settings [("TABLE = os.path.join(x)").toList] = [] ∧
    ("os.".toList.isPrefixOf cand = false ∧ "sys.".toList.isPrefixOf cand = false ∧
      ∃ l ∈ s, ((['#']).isPrefixOf (lower (strip l)) = false ∧
        kwSearch (lower (lower (strip l))) = true ∧
        cand ∈ scanTable (lower (strip l)))) := by
  refine ⟨rfl, rfl, ?_⟩
  simp only [parse_settings] at h
  rw [List.mem_filter] at h
  obtain ⟨hmem, hpred⟩ := h
  simp only [Bool.and_eq_true, Bool.not_eq_true', Bool.or_eq_false_iff] at hpred
  rcases List.mem_flatten.mp hmem with ⟨tl, htl, hctl⟩
  rcases List.mem_map.mp htl with ⟨l', hl', rfl⟩
  obtain ⟨hl'mem, hl'cond⟩ := List.mem_filter.mp hl'
  rcases List.mem_map.mp hl'mem with ⟨l, hl, rfl⟩
  simp only [Bool.and_eq_true, Bool.not_eq_true'] at hl'cond
  exact ⟨hpred.2.1, hpred.2.2, l, (List.mem_filter.mp hl).1, hl'cond.1, hl'cond.2, hctl⟩

theorem C6_witness :
    (("proj.ds.tbl").toList ∈ parse_settings [("TABLE = \"proj.ds.tbl\"").toList]) ∧
    (parse_settings [("TABLE = \"proj.ds.tbl\"").toList] = [("proj.ds.tbl").toList] ∧
     parse_settings [("TABLE = os.path.join(x)").toList] = [] ∧
     ("os.".toList.isPrefixOf ("proj.ds.tbl").toList = false ∧
      "sys.".toList.isPrefixOf ("proj.ds.tbl").toList = false ∧
      ∃ l ∈ [("TABLE = \"proj.ds.tbl\"").toList],
        ((['#']).isPrefixOf (lower (strip l)) = false ∧
         kwSearch (lower (lower (strip l))) = true ∧
         ("proj.ds.tbl").toList ∈ scanTable (lower (strip l))))) :=
  ⟨by decide,
   C6_settings_extraction [("TABLE = \"proj.ds.tbl\"").toList] ("proj.ds.tbl").toList (by decide)⟩

/-! ### The merge step -/

theorem lookup_ne_none_iff {k : List Char} : ∀ {d : List (List Char × List (List Char))},
    List.lookup k d ≠ none ↔ k ∈ keysOf d
  | [] => by simp [List.lookup, keysOf]
  | (a, b) :: d => by
    by_cases hk : k = a
    · simp [List.lookup, keysOf, hk]
    · have hbeq : (k == a) = false := by simp [hk]
      simp only [List.lookup, hbeq, keysOf, List.map_cons, List.mem_cons]
      rw [lookup_ne_none_iff (d := d)]
      simp [keysOf, hk]

theorem nodup_dedupKeepFirst : ∀ (l seen : List (List Char)),
    (dedupKeepFirst seen l).Nodup
  | [], _ => List.nodup_nil
  | x :: xs, seen => by
    rw [dedupKeepFirst]
    by_cases hx : x ∈ seen
    · rw [if_pos hx]; exact nodup_dedupKeepFirst xs seen
    · rw [if_neg hx, List.nodup_cons]
      exact ⟨fun hmem => (mem_dedupKeepFirst.mp hmem).2 (List.mem_cons_self ..),
        nodup_dedupKeepFirst xs (x :: seen)⟩

theorem merge_keys (p s : List (List Char × List (List Char))) :
    (merge p s).map Prod.fst = sortAsc (dedupKeepFirst [] (keysOf p ++ keysOf s)) := by
  simp only [merge, List.map_map]
  exact List.map_id _

/-- C2: the report built by the merge step has exactly the union of the two
key sets as keys, in ascending order without duplicates; an entry carries
`queries` exactly when its table is a key of the scheduled index and `code`
exactly when it is a key of the project index, each value list sorted
ascending; and the merge is deterministic. -/
theorem C2_merge_report (p s : List (List Char × List (List Char))) :
    List.Sorted (· ≤ ·) ((merge p s).map Prod.fst) ∧
    ((merge p s).map Prod.fst).Nodup ∧
    (∀ k, k ∈ (merge p s).map Prod.fst ↔ (k ∈ keysOf p ∨ k ∈ keysOf s)) ∧
    (∀ e ∈ merge p s,
      (e.2.queries ≠ none ↔ e.1 ∈ keysOf s) ∧
      (e.2.code ≠ none ↔ e.1 ∈ keysOf p) ∧
      (∀ L, e.2.queries = some L → List.Sorted (· ≤ ·) L) ∧
      (∀ L, e.2.code = some L → List.Sorted (· ≤ ·) L) ∧
      (∀ L v, e.2.queries = some L → List.lookup e.1 s = some v → L.Perm v) ∧
      (∀ L v, e.2.code = some L → List.lookup e.1 p = some v → L.Perm v)) ∧
    merge p s = merge p s := by
  refine ⟨?_, ?_, ?_, ?_, rfl⟩
  · rw [merge_keys]; exact List.sorted_insertionSort _ _
  · rw [merge_keys]
    exact ((List.perm_insertionSort _ _).symm).nodup (nodup_dedupKeepFirst _ _)
  · intro k
    rw [merge_keys]
    simp only [sortAsc, List.mem_insertionSort]
    rw [mem_dedupKeepFirst]
    simp [List.mem_append]
  · intro e he
    simp only [merge] at he
    rcases List.mem_map.mp he with ⟨t, ht, rfl⟩
    refine ⟨?_, ?_, ?_, ?_, ?_, ?_⟩
    · simp only [ne_eq, Option.map_eq_none']
      exact lookup_ne_none_iff
    · simp only [ne_eq, Option.map_eq_none']
      exact lookup_ne_none_iff
    · intro L hL
      rcases Option.map_eq_some'.mp hL with ⟨v, _, rfl⟩
      exact List.sorted_insertionSort _ _
    · intro L hL
      rcases Option.map_eq_some'.mp hL with ⟨v, _, rfl⟩
      exact List.sorted_insertionSort _ _
    · intro L v hL hv
      rcases Option.map_eq_some'.mp hL with ⟨w, hw, rfl⟩
      rw [hv, Option.some.injEq] at hw
      rw [hw]
      exact List.perm_insertionSort _ _
    · intro L v hL hv
      rcases Option.map_eq_some'.mp hL with ⟨w, hw, rfl⟩
      rw [hv, Option.some.injEq] at hw
      rw [hw]
      exact List.perm_insertionSort _ _

theorem C2_witness :
    ((("t.a.l").toList, ReportEntry.mk (some [("job1").toList]) none) ∈
      merge [(("t.b.l").toList, [("proj1").toList])] [(("t.a.l").toList, [("job1").toList])]) ∧
    ((ReportEntry.mk (some [("job1").toList]) none).queries ≠ none ↔
      ("t.a.l").toList ∈ keysOf [(("t.a.l").toList, [("job1").toList])]) ∧
    ((ReportEntry.mk (some [("job1").toList]) none).code ≠ none ↔
      ("t.a.l").toList ∈ keysOf [(("t.b.l").toList, [("proj1").toList])]) ∧
    (∀ L, (ReportEntry.mk (some [("job1").toList]) none).queries = some L →
      List.Sorted (· ≤ ·) L) ∧
    (∀ L, (ReportEntry.mk (some [("job1").toList]) none).code = some L →
      List.Sorted (· ≤ ·) L) ∧
    (∀ L v, (ReportEntry.mk (some [("job1").toList]) none).queries = some L →
      List.lookup ("t.a.l").toList [(("t.a.l").toList, [("job1").toList])] = some v →
      L.Perm v) ∧
    (∀ L v, (ReportEntry.mk (some [("job1").toList]) none).code = some L →
      List.lookup ("t.a.l").toList [(("t.b.l").toList, [("proj1").toList])] = some v →
      L.Perm v) :=
  ⟨by decide,
   (C2_merge_report [(("t.b.l").toList, [("proj1").toList])]
      [(("t.a.l").toList, [("job1").toList])]).2.2.2.1
     (("t.a.l").toList, ReportEntry.mk (some [("job1").toList]) none) (by decide)⟩

/-! ### The scheduled-query loop -/

theorem sqFold_error_iff : ∀ (records : List SQRecord)
    (acc : List (List Char × List (List Char))),
    (sqFold records acc = Except.error () ↔ ∃ r ∈ records, r.query = none)
  | [], acc => by simp [sqFold]
  | r :: rest, acc => by
    cases hq : r.query with
    | none =>
      simp only [sqFold, hq]
      exact iff_of_true trivial ⟨r, List.mem_cons_self .., hq⟩
    | some q =>
      rw [sqFold, hq]
      rw [sqFold_error_iff rest]
      constructor
      · rintro ⟨x, hx, hxq⟩
        exact ⟨x, List.mem_cons_of_mem _ hx, hxq⟩
      · rintro ⟨x, hx, hxq⟩
        rcases List.mem_cons.mp hx with rfl | hx
        · rw [hq] at hxq; cases hxq
        · exact ⟨x, hx, hxq⟩

/-- C1 (amended): a catalog record whose `params.query` is missing or null is
not skipped: reaching it makes `parse_scheduled_queries` raise
(`None.split` raises `AttributeError`, modelled as `Except.error ()`), and the
run fails exactly when some record lacks a query body; records that do carry a
query body are processed into table entries. -/
theorem C1_missing_query_raises (records : List SQRecord) :
    (parse_scheduled_queries records = Except.error () ↔
      ∃ r ∈ records, r.query = none) ∧
    parse_scheduled_queries [⟨("job1").toList, true, some ("JOIN p.d.t2").toList⟩] =
      Except.ok [(("p.d.t2").toList, [("job1 (disabled)").toList])] :=
  ⟨sqFold_error_iff records [], rfl⟩

/-- C1 counterexample: on a one-record catalog whose `params.query` is
missing/null, the loop raises instead of skipping the record — the run does
not complete, contradicting the claim that such a record merely contributes
no entries. -/
theorem C1_counterexample :
    parse_scheduled_queries [⟨("job1").toList, false, none⟩] = Except.error () ∧
    parse_scheduled_queries [⟨("job1").toList, false, none⟩,
      ⟨("job2").toList, false, some ("FROM p.d.t").toList⟩] = Except.error () :=
  ⟨rfl, rfl⟩

theorem C1_witness :
    parse_scheduled_queries [⟨("jobA").toList, false, none⟩,
      ⟨("jobB").toList, false, some ("FROM a.b.c").toList⟩] = Except.error () :=
  (C1_missing_query_raises [⟨("jobA").toList, false, none⟩,
      ⟨("jobB").toList, false, some ("FROM a.b.c").toList⟩]).1.mpr
    ⟨⟨("jobA").toList, false, none⟩, List.mem_cons_self .., rfl⟩

end BQTool
